import Mathlib

/-!
Verification development for the i18n extraction CLI
(`packages/i18n-extract-cli`).  The TypeScript sources are shallowly
embedded: JavaScript `Record<string, string>` objects become ordered
association lists (`List (String × String)`, insertion order preserved,
keys unique), strings are Lean `String`s manipulated through their
`List Char` data, and network / file-system collaborators become explicit
oracle parameters.  Every definition mirrors one function of the source
tree; the doc comment of each definition names that function.
-/

namespace I18n

/-! ### JavaScript string primitives

Character classes and string helpers used throughout the sources.  All
regular-expression character classes appearing in the code are ASCII (or
the CJK block `一-龥`), so they are modelled directly on `Char`.
JS whitespace (`\s`, `String.prototype.trim`) is modelled by its ASCII
part, which is the only part exercised by the embedded code paths. -/

def isAsciiLower (c : Char) : Bool := 'a' ≤ c && c ≤ 'z'

def isAsciiUpper (c : Char) : Bool := 'A' ≤ c && c ≤ 'Z'

def isAsciiDigit (c : Char) : Bool := '0' ≤ c && c ≤ '9'

def isAsciiAlnum (c : Char) : Bool := isAsciiLower c || isAsciiUpper c || isAsciiDigit c

/-- Lower-case letter, digit or underscore: the class `[a-z0-9_]`. -/
def isKeyChar (c : Char) : Bool := isAsciiLower c || isAsciiDigit c || c = '_'

/-- The CJK range `[一-龥]` used by the sources to detect Chinese. -/
def isCJK (c : Char) : Bool := 0x4e00 ≤ c.toNat && c.toNat ≤ 0x9fa5

/-- ASCII fragment of JS `\s`. -/
def isJsSpace (c : Char) : Bool :=
  c = ' ' || c = '\t' || c = '\n' || c = '\r' || c.toNat = 11 || c.toNat = 12

/-- `String.prototype.toLowerCase`, restricted to ASCII case mapping. -/
def jsToLower (s : String) : String := ⟨s.data.map Char.toLower⟩

/-- `String.prototype.trim`. -/
def jsTrim (s : String) : String :=
  ⟨((s.data.dropWhile isJsSpace).reverse.dropWhile isJsSpace).reverse⟩

/-- Contiguous-sublist test underlying `String.prototype.includes`. -/
def listIsInfix (sub : List Char) : List Char → Bool
  | [] => sub.isEmpty
  | c :: rest => sub.isPrefixOf (c :: rest) || listIsInfix sub rest

/-- `String.prototype.includes` (substring test). -/
def jsIncludes (s sub : String) : Bool := listIsInfix sub.data s.data

/-- `a.startsWith(b)`. -/
def jsStartsWith (s p : String) : Bool := p.data.isPrefixOf s.data

/-- `a.endsWith(b)`. -/
def jsEndsWith (s p : String) : Bool := p.data.isSuffixOf s.data

/-- Drop the final `n` characters (used for stripping file extensions). -/
def jsDropRight (s : String) (n : Nat) : String := ⟨s.data.take (s.data.length - n)⟩

/-- `String.prototype.split(sep)` for a one-character separator. -/
def splitCharAux (sep : Char) : List Char → List Char → List (List Char)
  | cur, [] => [cur.reverse]
  | cur, c :: rest =>
    if c = sep then cur.reverse :: splitCharAux sep [] rest
    else splitCharAux sep (c :: cur) rest

def jsSplitChar (sep : Char) (s : String) : List String :=
  (splitCharAux sep [] s.data).map (fun l => ⟨l⟩)

/-- `Array.prototype.join(sep)` restricted to an underscore separator. -/
def joinUnderscore : List String → String
  | [] => ""
  | [s] => s
  | s :: rest => s ++ "_" ++ joinUnderscore rest

theorem string_data_append (a b : String) : (a ++ b).data = a.data ++ b.data := rfl

theorem string_data_inj {s t : String} (h : s.data = t.data) : s = t := by
  cases s; cases t; simp_all

/-! ### Decimal rendering of loop counters

The collision loops build candidate keys with template literals
`` `${key}_${i}` ``; the JS number-to-string conversion for the natural
counter is plain decimal.  `natToDec` renders it (fuel-structural so that
it evaluates by kernel reduction); `decVal` reads it back, which gives
injectivity — the fact that suffixed candidates never collide with each
other. -/

def natToDecAux : Nat → Nat → List Char
  | 0, _ => []
  | fuel + 1, n =>
    if n = 0 then [] else natToDecAux fuel (n / 10) ++ [Nat.digitChar (n % 10)]

def natToDec (n : Nat) : String := if n = 0 then "0" else ⟨natToDecAux (n + 1) n⟩

def charDigitVal (c : Char) : Nat := c.toNat - '0'.toNat

def decVal (l : List Char) : Nat := l.foldl (fun a c => 10 * a + charDigitVal c) 0

theorem decVal_append_singleton (l : List Char) (c : Char) :
    decVal (l ++ [c]) = 10 * decVal l + charDigitVal c := by
  simp [decVal, List.foldl_append]

theorem charDigitVal_digitChar : ∀ d, d < 10 → charDigitVal (Nat.digitChar d) = d := by
  decide

theorem natToDecAux_zero (fuel : Nat) : natToDecAux fuel 0 = [] := by
  cases fuel <;> simp [natToDecAux]

theorem decVal_natToDecAux :
    ∀ fuel n, n ≠ 0 → n ≤ fuel → decVal (natToDecAux fuel n) = n := by
  intro fuel
  induction fuel with
  | zero => intro n h0 hle; omega
  | succ f ih =>
    intro n h0 hle
    have hmod : n % 10 < 10 := Nat.mod_lt _ (by norm_num)
    rw [natToDecAux, if_neg h0, decVal_append_singleton, charDigitVal_digitChar _ hmod]
    by_cases hdiv : n / 10 = 0
    · rw [hdiv, natToDecAux_zero]
      have := Nat.div_add_mod n 10
      simp [decVal]
      omega
    · have hlt : n / 10 < n := Nat.div_lt_self (Nat.pos_of_ne_zero h0) (by norm_num)
      rw [ih (n / 10) hdiv (by omega)]
      have := Nat.div_add_mod n 10
      omega

theorem natToDec_injective : Function.Injective natToDec := by
  intro a b h
  by_cases ha : a = 0 <;> by_cases hb : b = 0
  · omega
  · exfalso
    rw [natToDec, if_pos ha, natToDec, if_neg hb] at h
    have hdata := congrArg String.data h
    have h0 : decVal ("0".data) = 0 := by decide
    rw [hdata] at h0
    have := decVal_natToDecAux (b + 1) b hb (by omega)
    simp at h0
    omega
  · exfalso
    rw [natToDec, if_neg ha, natToDec, if_pos hb] at h
    have hdata := congrArg String.data h
    have h0 : decVal ("0".data) = 0 := by decide
    rw [← hdata] at h0
    have := decVal_natToDecAux (a + 1) a ha (by omega)
    simp at h0
    omega
  · rw [natToDec, if_neg ha, natToDec, if_neg hb] at h
    have hdata := congrArg String.data h
    simp at hdata
    have h1 := decVal_natToDecAux (a + 1) a ha (by omega)
    have h2 := decVal_natToDecAux (b + 1) b hb (by omega)
    rw [hdata] at h1
    omega

/-! ### Collision-suffix candidates

Both deduplication loops of `utils/openaiKeyMapper.ts` scan the candidate
sequence `key`, `` `${key}_${i}` `` (for increasing `i`) and keep the
first candidate not yet used.  `suffixCand key i` is the `i`-th candidate
(`i = 0` meaning the bare key); `pickFreshFrom used key fuel i` is the
scan starting at index `i`.  The JS loops are unbounded `while` loops;
here they carry fuel `used.length + 1`, which the freshness lemmas below
prove is never exhausted, so the fuelled scan returns exactly the first
fresh candidate, as the source loop does. -/

def suffixCand (key : String) : Nat → String
  | 0 => key
  | i + 1 => key ++ "_" ++ natToDec (i + 1)

theorem suffixCand_injective (key : String) : Function.Injective (suffixCand key) := by
  have hlen : ∀ j : Nat, key ≠ key ++ "_" ++ natToDec (j + 1) := by
    intro j h
    have hdata := congrArg (fun s => s.data.length) h
    simp [string_data_append] at hdata
  intro a b h
  match a, b with
  | 0, 0 => rfl
  | 0, b + 1 => exact absurd h (hlen b)
  | a + 1, 0 => exact absurd h.symm (hlen a)
  | a + 1, b + 1 =>
    have hdata := congrArg String.data h
    simp only [suffixCand, string_data_append, List.append_assoc] at hdata
    have hd : (natToDec (a + 1)).data = (natToDec (b + 1)).data := by
      have h1 := List.append_cancel_left hdata
      simpa using List.append_cancel_left h1
    have := natToDec_injective (string_data_inj hd)
    omega

def pickFreshFrom (used : List String) (key : String) : Nat → Nat → String
  | 0, i => suffixCand key i
  | fuel + 1, i =>
    if suffixCand key i ∈ used then pickFreshFrom used key fuel (i + 1)
    else suffixCand key i

theorem pickFreshFrom_not_mem_of_exists (used : List String) (key : String) :
    ∀ fuel i, (∃ j, i ≤ j ∧ j ≤ i + fuel ∧ suffixCand key j ∉ used) →
      pickFreshFrom used key fuel i ∉ used := by
  intro fuel
  induction fuel with
  | zero =>
    intro i ⟨j, h1, h2, h3⟩
    have : j = i := by omega
    subst this
    simpa [pickFreshFrom] using h3
  | succ f ih =>
    intro i ⟨j, h1, h2, h3⟩
    by_cases hc : suffixCand key i ∈ used
    · have hji : j ≠ i := by
        intro h
        subst h
        exact h3 hc
      rw [pickFreshFrom, if_pos hc]
      exact ih (i + 1) ⟨j, by omega, by omega, h3⟩
    · rw [pickFreshFrom, if_neg hc]
      exact hc

/-- Pigeonhole: among any `used.length + 1` consecutive candidates one is
unused, since the candidates are pairwise distinct. -/
theorem exists_fresh_suffixCand (used : List String) (key : String) (i : Nat) :
    ∃ j, i ≤ j ∧ j ≤ i + used.length ∧ suffixCand key j ∉ used := by
  by_contra hcon
  push_neg at hcon
  have hmaps : ∀ m ∈ Finset.range (used.length + 1),
      suffixCand key (i + m) ∈ used.toFinset := by
    intro m hm
    rw [Finset.mem_range] at hm
    rw [List.mem_toFinset]
    exact hcon (i + m) (by omega) (by omega)
  have hinj : Set.InjOn (fun m => suffixCand key (i + m))
      (Finset.range (used.length + 1) : Finset Nat) := by
    intro a _ b _ hab
    have := suffixCand_injective key hab
    omega
  have hcard := Finset.card_le_card_of_injOn _ hmaps hinj
  rw [Finset.card_range] at hcard
  have := used.toFinset_card_le
  omega

theorem pickFreshFrom_not_mem (used : List String) (key : String) (i : Nat) :
    pickFreshFrom used key (used.length + 1) i ∉ used := by
  apply pickFreshFrom_not_mem_of_exists
  obtain ⟨j, h1, h2, h3⟩ := exists_fresh_suffixCand used key i
  exact ⟨j, h1, by omega, h3⟩

/-! ### JavaScript `Record<string, string>` objects

Insertion-ordered string maps.  `recordSet m k v` is the JS assignment
`m[k] = v`: it updates the value in place when the key is present
(object keys are unique, so only the first matching entry can exist) and
appends a new entry otherwise.  `lookupA` is property access `m[k]`. -/

def recordSet : List (String × String) → String → String → List (String × String)
  | [], k, v => [(k, v)]
  | p :: rest, k, v => if p.1 = k then (k, v) :: rest else p :: recordSet rest k v

def lookupA : List (String × String) → String → Option String
  | [], _ => none
  | p :: rest, k => if p.1 = k then some p.2 else lookupA rest k

/-- `lodash merge` of two flat string-valued maps: base entries first,
then the overriding map's entries update in place or append. -/
def mergeMaps (base : List (String × String)) : List (String × String) → List (String × String)
  | [] => base
  | p :: rest => mergeMaps (recordSet base p.1 p.2) rest

theorem recordSet_keys_mem (m : List (String × String)) (k v a : String) :
    a ∈ (recordSet m k v).map Prod.fst ↔ a ∈ m.map Prod.fst ∨ a = k := by
  induction m with
  | nil => simp [recordSet]
  | cons p rest ih =>
    by_cases h : p.1 = k
    · simp [recordSet, h]
      tauto
    · simp [recordSet, h, ih]
      tauto

theorem recordSet_keys_nodup (m : List (String × String)) (k v : String)
    (h : (m.map Prod.fst).Nodup) : ((recordSet m k v).map Prod.fst).Nodup := by
  induction m with
  | nil => simp [recordSet]
  | cons p rest ih =>
    simp only [List.map_cons, List.nodup_cons] at h
    by_cases hk : p.1 = k
    · simp only [recordSet, if_pos hk, List.map_cons, List.nodup_cons]
      exact ⟨by rw [← hk]; exact h.1, h.2⟩
    · simp only [recordSet, if_neg hk, List.map_cons, List.nodup_cons]
      refine ⟨?_, ih h.2⟩
      rw [recordSet_keys_mem]
      rintro (hmem | hmem)
      · exact h.1 hmem
      · exact hk hmem

theorem recordSet_key_preserved (m : List (String × String)) (k v : String) :
    ∀ p ∈ m, ∃ q ∈ recordSet m k v, q.1 = p.1 := by
  induction m with
  | nil => simp
  | cons hd rest ih =>
    intro p hp
    by_cases hk : hd.1 = k
    · simp only [recordSet, if_pos hk]
      rcases List.mem_cons.mp hp with h | h
      · exact ⟨(k, v), List.mem_cons_self _ _, by rw [h, ← hk]⟩
      · exact ⟨p, List.mem_cons_of_mem _ h, rfl⟩
    · simp only [recordSet, if_neg hk]
      rcases List.mem_cons.mp hp with h | h
      · exact ⟨hd, List.mem_cons_self _ _, by rw [h]⟩
      · obtain ⟨q, hq1, hq2⟩ := ih p h
        exact ⟨q, List.mem_cons_of_mem _ hq1, hq2⟩

theorem mergeMaps_key_preserved (over : List (String × String)) :
    ∀ base, ∀ p ∈ base, ∃ q ∈ mergeMaps base over, q.1 = p.1 := by
  induction over with
  | nil => intro base p hp; exact ⟨p, hp, rfl⟩
  | cons o rest ih =>
    intro base p hp
    obtain ⟨q, hq1, hq2⟩ := recordSet_key_preserved base o.1 o.2 p hp
    obtain ⟨r, hr1, hr2⟩ := ih (recordSet base o.1 o.2) q hq1
    exact ⟨r, hr1, by rw [hr2, hq2]⟩

/-! ### `utils/openaiKeyMapper.ts` — `toSnakeCase`

```js
function toSnakeCase(input) {
  const ascii = input.normalize('NFKD').replace(/[̀-ͯ]/g, '')
    .replace(/[^a-zA-Z0-9]+/g, ' ').trim()
  if (!ascii) return ''
  return ascii.split(/\s+/).map(s => s.toLowerCase()).join('_')
}
```
Replacing non-alphanumeric runs by a space, trimming, and splitting on
whitespace yields exactly the maximal ASCII-alphanumeric runs of the
input, which is how it is modelled.  The Unicode NFKD normalization step
is kept abstract as a parameter `nfkd` (it is the identity on the ASCII
inputs of every concrete statement below). -/

def alnumWordsAux : List Char → List Char → List (List Char)
  | cur, [] => if cur = [] then [] else [cur.reverse]
  | cur, c :: rest =>
    if isAsciiAlnum c then alnumWordsAux (c :: cur) rest
    else if cur = [] then alnumWordsAux [] rest
    else cur.reverse :: alnumWordsAux [] rest

def stripCombiningMarks (l : List Char) : List Char :=
  l.filter (fun c => !(0x300 ≤ c.toNat && c.toNat ≤ 0x36f))

def toSnakeCase (nfkd : String → String) (input : String) : String :=
  let words := alnumWordsAux [] (stripCombiningMarks (nfkd input).data)
  if words = [] then ""
  else joinUnderscore (words.map (fun w => ⟨w.map Char.toLower⟩))

/-! ### `utils/openaiKeyMapper.ts` — `ensureUniqueKeys`

```js
function ensureUniqueKeys(map) {
  const used = new Set(); const result = {}
  Object.keys(map).forEach((k) => {
    let key = map[k]
    if (!key) key = toSnakeCase(k)
    if (!key) key = 'key'
    let candidate = key; let i = 1
    while (used.has(candidate)) { candidate = `${key}_${i++}` }
    used.add(candidate); result[k] = candidate
  })
  return result
}
```
`Object.keys` iterates in insertion order and object keys are unique, so
the rebuilt `result` is the input list with each value replaced by its
fresh candidate.  Note the counter starts at 1: the candidate sequence is
`key, key_1, key_2, …`. -/

def ensureUniqueKeysAux (nfkd : String → String) (used : List String) :
    List (String × String) → List (String × String)
  | [] => []
  | (k, v) :: rest =>
    let key1 := if v = "" then toSnakeCase nfkd k else v
    let key2 := if key1 = "" then "key" else key1
    let cand := pickFreshFrom used key2 (used.length + 1) 0
    (k, cand) :: ensureUniqueKeysAux nfkd (used ++ [cand]) rest

def ensureUniqueKeys (nfkd : String → String) (map : List (String × String)) :
    List (String × String) :=
  ensureUniqueKeysAux nfkd [] map

/-! ### `utils/openaiKeyMapper.ts` — reserved-key adjustment

All three result paths of `generateSemanticSnakeCaseKeys` end with the
same loop, which walks the uniquified map and bumps any value colliding
with the reserved set (or with an already-assigned value) to
`` `${val}_${i}` `` with the counter starting at 2:

```js
const adjusted = {}; const used = new Set(reservedKeys)
Object.keys(ensured).forEach((k) => {
  const val = ensured[k]
  let cand = val; let i = 2
  while (used.has(cand)) { cand = `${val}_${i++}` }
  used.add(cand); adjusted[k] = cand
})
```
-/

def reservedAdjustAux (used : List String) :
    List (String × String) → List (String × String)
  | [] => []
  | (k, v) :: rest =>
    let cand := if v ∈ used then pickFreshFrom used v (used.length + 1) 2 else v
    (k, cand) :: reservedAdjustAux (used ++ [cand]) rest

def reservedAdjust (reserved : List String) (m : List (String × String)) :
    List (String × String) :=
  reservedAdjustAux reserved m

/-! ### `utils/openaiKeyMapper.ts` — result-map construction

Each branch of `generateSemanticSnakeCaseKeys` builds a `Record` by
iterating `originals.forEach((o, idx) => { result[o] = … })`; only the
value computation differs, so the iteration is shared. -/

def buildRecordAux (valueOf : Nat → String → String) :
    Nat → List (String × String) → List String → List (String × String)
  | _, acc, [] => acc
  | idx, acc, o :: rest => buildRecordAux valueOf (idx + 1) (recordSet acc o (valueOf idx o)) rest

def buildRecord (valueOf : Nat → String → String) (originals : List String) :
    List (String × String) :=
  buildRecordAux valueOf 0 [] originals

/-- `toSnakeCase(o) || `key_${idx + 1}`` — the heuristic value used both
by the missing-API-key branch and by the catch-all fallback branch. -/
def fallbackKeyFor (nfkd : String → String) (idx : Nat) (o : String) : String :=
  let s := toSnakeCase nfkd o
  if s = "" then "key_" ++ natToDec (idx + 1) else s

def buildFallback (nfkd : String → String) (originals : List String) :
    List (String × String) :=
  buildRecord (fallbackKeyFor nfkd) originals

/-- Value computation of the parsed-response branch:
`result[o] = typeof v === 'string' && v.trim() ? v.trim() : toSnakeCase(o) || `key_${idx+1}``. -/
def parsedKeyFor (nfkd : String → String) (parsed : List (String × String))
    (idx : Nat) (o : String) : String :=
  match lookupA parsed o with
  | some v => if jsTrim v = "" then fallbackKeyFor nfkd idx o else jsTrim v
  | none => fallbackKeyFor nfkd idx o

def buildFromParsed (nfkd : String → String) (parsed : List (String × String))
    (originals : List String) : List (String × String) :=
  buildRecord (parsedKeyFor nfkd parsed) originals

/-! ### `utils/openaiKeyMapper.ts` — `generateSemanticSnakeCaseKeys`

The network call is abstracted into `response : Option (List (String ×
String))`: `none` covers every failure of the batched call (the promise
rejecting, a non-2xx status, unparseable content with no extractable JSON
block — all of which land in the catch-all or skip the `if (parsed)`
body), while `some parsed` is a successfully parsed content object.
`config.baseUrl` and `config.model` only shape the request, never the
result, so only `config.apiKey` (defaulted to the empty string) appears.
Every path returns normally: the catch clause is `// ignore and
fallback`, so a batch failure produces the heuristic fallback map instead
of an error. -/

def generateSemanticSnakeCaseKeys (nfkd : String → String) (originals : List String)
    (apiKey : String) (response : Option (List (String × String)))
    (reserved : List String) : List (String × String) :=
  if apiKey = "" then
    reservedAdjust reserved (ensureUniqueKeys nfkd (buildFallback nfkd originals))
  else
    match response with
    | some parsed =>
        reservedAdjust reserved (ensureUniqueKeys nfkd (buildFromParsed nfkd parsed originals))
    | none =>
        reservedAdjust reserved (ensureUniqueKeys nfkd (buildFallback nfkd originals))

/-! ### Invariants of the deduplication loops -/

theorem ensureUniqueKeysAux_keys (nfkd : String → String) :
    ∀ (m : List (String × String)) (used : List String),
      (ensureUniqueKeysAux nfkd used m).map Prod.fst = m.map Prod.fst := by
  intro m
  induction m with
  | nil => intro used; rfl
  | cons p rest ih =>
    intro used
    obtain ⟨k, v⟩ := p
    simp only [ensureUniqueKeysAux, List.map_cons, ih]

theorem ensureUniqueKeysAux_values_not_mem (nfkd : String → String) :
    ∀ (m : List (String × String)) (used : List String),
      ∀ v ∈ (ensureUniqueKeysAux nfkd used m).map Prod.snd, v ∉ used := by
  intro m
  induction m with
  | nil => intro used v hv; simp [ensureUniqueKeysAux] at hv
  | cons p rest ih =>
    intro used v hv
    obtain ⟨k, v0⟩ := p
    simp only [ensureUniqueKeysAux, List.map_cons, List.mem_cons] at hv
    rcases hv with hv | hv
    · rw [hv]
      exact pickFreshFrom_not_mem used _ 0
    · intro hmem
      exact ih _ v hv (List.mem_append_left _ hmem)

theorem ensureUniqueKeysAux_values_nodup (nfkd : String → String) :
    ∀ (m : List (String × String)) (used : List String),
      ((ensureUniqueKeysAux nfkd used m).map Prod.snd).Nodup := by
  intro m
  induction m with
  | nil => intro used; simp [ensureUniqueKeysAux]
  | cons p rest ih =>
    intro used
    obtain ⟨k, v0⟩ := p
    simp only [ensureUniqueKeysAux, List.map_cons, List.nodup_cons]
    refine ⟨?_, ih _⟩
    intro hmem
    have := ensureUniqueKeysAux_values_not_mem nfkd rest _ _ hmem
    exact this (List.mem_append_right _ (List.mem_singleton.mpr rfl))

theorem reservedAdjustAux_keys :
    ∀ (m : List (String × String)) (used : List String),
      (reservedAdjustAux used m).map Prod.fst = m.map Prod.fst := by
  intro m
  induction m with
  | nil => intro used; rfl
  | cons p rest ih =>
    intro used
    obtain ⟨k, v⟩ := p
    simp only [reservedAdjustAux, List.map_cons, ih]

theorem reservedAdjustAux_cand_not_mem (used : List String) (v : String) :
    (if v ∈ used then pickFreshFrom used v (used.length + 1) 2 else v) ∉ used := by
  by_cases h : v ∈ used
  · rw [if_pos h]
    exact pickFreshFrom_not_mem used v 2
  · rw [if_neg h]
    exact h

theorem reservedAdjustAux_values_not_mem :
    ∀ (m : List (String × String)) (used : List String),
      ∀ v ∈ (reservedAdjustAux used m).map Prod.snd, v ∉ used := by
  intro m
  induction m with
  | nil => intro used v hv; simp [reservedAdjustAux] at hv
  | cons p rest ih =>
    intro used v hv
    obtain ⟨k, v0⟩ := p
    simp only [reservedAdjustAux, List.map_cons, List.mem_cons] at hv
    rcases hv with hv | hv
    · rw [hv]
      exact reservedAdjustAux_cand_not_mem used v0
    · intro hmem
      exact ih _ v hv (List.mem_append_left _ hmem)

theorem reservedAdjustAux_values_nodup :
    ∀ (m : List (String × String)) (used : List String),
      ((reservedAdjustAux used m).map Prod.snd).Nodup := by
  intro m
  induction m with
  | nil => intro used; simp [reservedAdjustAux]
  | cons p rest ih =>
    intro used
    obtain ⟨k, v0⟩ := p
    simp only [reservedAdjustAux, List.map_cons, List.nodup_cons]
    refine ⟨?_, ih _⟩
    intro hmem
    have := reservedAdjustAux_values_not_mem rest _ _ hmem
    exact this (List.mem_append_right _ (List.mem_singleton.mpr rfl))

theorem buildRecordAux_keys_mem (valueOf : Nat → String → String) :
    ∀ (l : List String) (idx : Nat) (acc : List (String × String)) (a : String),
      a ∈ (buildRecordAux valueOf idx acc l).map Prod.fst ↔
        a ∈ acc.map Prod.fst ∨ a ∈ l := by
  intro l
  induction l with
  | nil => intro idx acc a; simp [buildRecordAux]
  | cons o rest ih =>
    intro idx acc a
    simp only [buildRecordAux, ih, recordSet_keys_mem, List.mem_cons]
    tauto

theorem buildRecordAux_keys_nodup (valueOf : Nat → String → String) :
    ∀ (l : List String) (idx : Nat) (acc : List (String × String)),
      (acc.map Prod.fst).Nodup → ((buildRecordAux valueOf idx acc l).map Prod.fst).Nodup := by
  intro l
  induction l with
  | nil => intro idx acc h; exact h
  | cons o rest ih =>
    intro idx acc h
    exact ih _ _ (recordSet_keys_nodup acc _ _ h)

/-- The result of `generateSemanticSnakeCaseKeys` always has the shape
`reservedAdjust reserved (ensureUniqueKeys nfkd (buildRecord f originals))`
for some per-original value function `f`. -/
theorem generateSemanticSnakeCaseKeys_shape (nfkd : String → String)
    (originals : List String) (apiKey : String)
    (response : Option (List (String × String))) (reserved : List String) :
    ∃ f, generateSemanticSnakeCaseKeys nfkd originals apiKey response reserved =
      reservedAdjust reserved (ensureUniqueKeys nfkd (buildRecord f originals)) := by
  unfold generateSemanticSnakeCaseKeys
  by_cases h : apiKey = ""
  · exact ⟨fallbackKeyFor nfkd, by rw [if_pos h]; rfl⟩
  · cases response with
    | some parsed => exact ⟨parsedKeyFor nfkd parsed, by rw [if_neg h]; rfl⟩
    | none => exact ⟨fallbackKeyFor nfkd, by rw [if_neg h]; rfl⟩

theorem generateSemanticSnakeCaseKeys_keys_nodup (nfkd : String → String)
    (originals : List String) (apiKey : String)
    (response : Option (List (String × String))) (reserved : List String) :
    ((generateSemanticSnakeCaseKeys nfkd originals apiKey response reserved).map
      Prod.fst).Nodup := by
  obtain ⟨f, hf⟩ :=
    generateSemanticSnakeCaseKeys_shape nfkd originals apiKey response reserved
  rw [hf, reservedAdjust, reservedAdjustAux_keys, ensureUniqueKeys,
    ensureUniqueKeysAux_keys]
  exact buildRecordAux_keys_nodup f originals 0 [] (by simp)

theorem generateSemanticSnakeCaseKeys_keys_mem (nfkd : String → String)
    (originals : List String) (apiKey : String)
    (response : Option (List (String × String))) (reserved : List String)
    (a : String) :
    a ∈ (generateSemanticSnakeCaseKeys nfkd originals apiKey response reserved).map
      Prod.fst ↔ a ∈ originals := by
  obtain ⟨f, hf⟩ :=
    generateSemanticSnakeCaseKeys_shape nfkd originals apiKey response reserved
  rw [hf, reservedAdjust, reservedAdjustAux_keys, ensureUniqueKeys,
    ensureUniqueKeysAux_keys]
  rw [buildRecord, buildRecordAux_keys_mem]
  simp

theorem generateSemanticSnakeCaseKeys_values_nodup (nfkd : String → String)
    (originals : List String) (apiKey : String)
    (response : Option (List (String × String))) (reserved : List String) :
    ((generateSemanticSnakeCaseKeys nfkd originals apiKey response reserved).map
      Prod.snd).Nodup := by
  obtain ⟨f, hf⟩ :=
    generateSemanticSnakeCaseKeys_shape nfkd originals apiKey response reserved
  rw [hf]
  exact reservedAdjustAux_values_nodup _ _

theorem generateSemanticSnakeCaseKeys_values_not_reserved (nfkd : String → String)
    (originals : List String) (apiKey : String)
    (response : Option (List (String × String))) (reserved : List String) :
    ∀ v ∈ (generateSemanticSnakeCaseKeys nfkd originals apiKey response reserved).map
      Prod.snd, v ∉ reserved := by
  obtain ⟨f, hf⟩ :=
    generateSemanticSnakeCaseKeys_shape nfkd originals apiKey response reserved
  rw [hf]
  exact reservedAdjustAux_values_not_mem _ _

/-! ## `utils/openaiKeyGenerator.ts` — `OpenAIKeyGenerator`

Key-sanitizing helpers shared by `sanitizeKey` and
`extractContextFromPath`.  Each models one step of the `replace` chains:

* `/([A-Z])/g → '_$1'` — underscore before each ASCII capital;
* `/^_/` — strip a single leading underscore;
* `/[^a-z0-9_]/g → '_'` — map every other character to an underscore;
* `/_+/g → '_'` — collapse underscore runs;
* `/^_|_$/g` — strip one leading and one trailing underscore. -/

def insertUnderscoreBeforeUpper (s : String) : String :=
  ⟨s.data.foldr (fun c acc => (if isAsciiUpper c then ['_', c] else [c]) ++ acc) []⟩

def stripOneLeadingUnderscore (s : String) : String :=
  match s.data with
  | '_' :: rest => ⟨rest⟩
  | _ => s

def replaceNonKeyCharsWithUnderscore (s : String) : String :=
  ⟨s.data.map (fun c => if isKeyChar c then c else '_')⟩

def collapseUnderscoresAux : Bool → List Char → List Char
  | _, [] => []
  | prev, c :: rest =>
    if c = '_' then
      if prev then collapseUnderscoresAux true rest
      else '_' :: collapseUnderscoresAux true rest
    else c :: collapseUnderscoresAux false rest

def collapseUnderscores (s : String) : String := ⟨collapseUnderscoresAux false s.data⟩

def stripEdgeUnderscores (s : String) : String :=
  let l := match s.data with
    | '_' :: rest => rest
    | other => other
  let r := match l.reverse with
    | '_' :: rest => rest.reverse
    | _ => l
  ⟨r⟩

/-- The tail-end cleanup `.toLowerCase().replace(/[^a-z0-9_]/g, '_')`
`.replace(/_+/g, '_').replace(/^_|_$/g, '')` shared by
`extractContextFromPath`'s return expression. -/
def contextCleanup (s : String) : String :=
  stripEdgeUnderscores (collapseUnderscores (replaceNonKeyCharsWithUnderscore (jsToLower s)))

/-- The full clean-up chain of `sanitizeKey`: lowercase, whitespace runs
to underscores (the later run-collapsing step makes per-character
replacement equivalent), hyphens to underscores, every remaining
non-`[a-z0-9_]` character to an underscore, collapse underscore runs,
strip one leading and one trailing underscore. -/
def cleanupKeyString (s : String) : String :=
  stripEdgeUnderscores (collapseUnderscores (replaceNonKeyCharsWithUnderscore
    ⟨(jsToLower s).data.map (fun c => if isJsSpace c then '_' else if c = '-' then '_' else c)⟩))

/-- `/\.(tsx|ts|js|jsx)$/i` — strip a recognised extension suffix. -/
def stripScriptExt (s : String) : String :=
  let low := jsToLower s
  if jsEndsWith low ".tsx" || jsEndsWith low ".jsx" then jsDropRight s 4
  else if jsEndsWith low ".ts" || jsEndsWith low ".js" then jsDropRight s 3
  else s

/-- `filePath.replace(/\\/g, '/').split('/')`. -/
def splitPathSegs (p : String) : List String :=
  jsSplitChar '/' ⟨p.data.map (fun c => if c = '\\' then '/' else c)⟩

/-- `OpenAIKeyGenerator.extractContextFromPath`: pick the segment after
the first `pages` segment when it exists and is non-empty (JS
truthiness), otherwise the first segment containing `Management`, `Page`
or `Settings`; strip the script extension, underscore-separate the camel
case, and clean up. -/
def extractContextFromPath (filePath : Option String) : String :=
  match filePath with
  | none => ""
  | some fp =>
    let segs := splitPathSegs fp
    let moduleSegment :=
      match segs.findIdx? (fun s => s = "pages") with
      | some i =>
        match segs.get? (i + 1) with
        | some seg =>
          if seg ≠ "" then seg
          else (segs.find? (fun s =>
            jsIncludes s "Management" || jsIncludes s "Page" || jsIncludes s "Settings")).getD ""
        | none => (segs.find? (fun s =>
            jsIncludes s "Management" || jsIncludes s "Page" || jsIncludes s "Settings")).getD ""
      | none => (segs.find? (fun s =>
          jsIncludes s "Management" || jsIncludes s "Page" || jsIncludes s "Settings")).getD ""
    let m1 := stripScriptExt moduleSegment
    let m2 := stripOneLeadingUnderscore (insertUnderscoreBeforeUpper m1)
    contextCleanup m2

/-- `OpenAIKeyGenerator.sanitizeKey`. -/
def sanitizeKey (key context : String) : String :=
  let cleaned := cleanupKeyString key
  let cleaned :=
    if context ≠ "" then
      let safeContext := cleanupKeyString context
      if cleaned ≠ "" && !(jsStartsWith cleaned (safeContext ++ "_")) && cleaned ≠ safeContext
      then safeContext ++ "_" ++ cleaned
      else if cleaned = "" then safeContext
      else cleaned
    else cleaned
  if !(match cleaned.data with | c :: _ => isAsciiLower c | [] => false)
  then "key_" ++ cleaned
  else cleaned

/-- Matcher for all of `rest` in `[a-z0-9_]*[a-z0-9]$`: every character
but the last in `[a-z0-9_]` and the last in `[a-z0-9]`. -/
def snakeTailMatches : List Char → Bool
  | [] => false
  | [c] => isAsciiLower c || isAsciiDigit c
  | c :: rest => isKeyChar c && snakeTailMatches rest

/-- `/^[a-z][a-z0-9_]*[a-z0-9]$/`. -/
def snakeCaseRegexTest (s : String) : Bool :=
  match s.data with
  | [] => false
  | c :: rest => isAsciiLower c && snakeTailMatches rest

/-- `OpenAIKeyGenerator.isValidKey`. -/
def isValidKey (key : String) : Bool :=
  snakeCaseRegexTest key && key.data.all isKeyChar && !(key.data.any isCJK)
    && decide (key.data.length > 3)

/-- `OpenAIKeyGenerator.generateKey`.  The HTTP interaction is abstracted
into `response : Option String`: `none` covers a rejected fetch, a
non-`ok` status, or a thrown parse error (all of which make `generateKey`
throw), and `some content` is the assistant text
`data.choices[0].message.content ?? ''` of a successful call.  The
returned `Except` value is the promise outcome: `.error` rethrows, `.ok`
resolves with the normalized key. -/
def generateKey (chineseText : String) (filePath : Option String)
    (response : Option String) : Except String String :=
  let context := extractContextFromPath filePath
  let _ := chineseText
  match response with
  | none => .error "openai_request_failed"
  | some content =>
    let generatedKey := jsTrim content
    if generatedKey = "" then .error "openai_empty_key"
    else
      let normalizedKey := sanitizeKey generatedKey context
      if isValidKey normalizedKey then .ok normalizedKey
      else .error "openai_invalid_key_format"

/-- The validity predicate exactly as the claim states it: only lowercase
letters, digits and underscores; starts with a letter; ends with a letter
or digit; contains no Chinese characters; length greater than 3. -/
def claimValidKey (key : String) : Bool :=
  key.data.all isKeyChar
    && (match key.data.head? with | some c => isAsciiLower c | none => false)
    && (match key.data.getLast? with | some c => isAsciiLower c || isAsciiDigit c | none => false)
    && !(key.data.any isCJK)
    && decide (key.data.length > 3)

theorem snakeTailMatches_getLast :
    ∀ l : List Char, snakeTailMatches l = true →
      ∃ c, l.getLast? = some c ∧ (isAsciiLower c || isAsciiDigit c) = true := by
  intro l
  induction l with
  | nil => intro h; simp [snakeTailMatches] at h
  | cons c rest ih =>
    intro h
    cases rest with
    | nil =>
      simp only [snakeTailMatches] at h
      exact ⟨c, rfl, h⟩
    | cons d tl =>
      simp only [snakeTailMatches, Bool.and_eq_true] at h
      obtain ⟨e, he1, he2⟩ := ih h.2
      refine ⟨e, ?_, he2⟩
      rw [List.getLast?_cons_cons]
      exact he1

theorem isValidKey_claimValid (key : String) (h : isValidKey key = true) :
    claimValidKey key = true := by
  unfold isValidKey at h
  simp only [Bool.and_eq_true] at h
  obtain ⟨⟨⟨hsnake, hall⟩, hcjk⟩, hlen⟩ := h
  unfold claimValidKey
  simp only [Bool.and_eq_true]
  unfold snakeCaseRegexTest at hsnake
  refine ⟨⟨⟨⟨hall, ?_⟩, ?_⟩, hcjk⟩, hlen⟩
  · match hd : key.data with
    | [] => rw [hd] at hsnake; simp at hsnake
    | c :: rest =>
      rw [hd] at hsnake
      simp only [Bool.and_eq_true] at hsnake
      simp [hd, hsnake.1]
  · match hd : key.data with
    | [] => rw [hd] at hsnake; simp at hsnake
    | c :: rest =>
      rw [hd] at hsnake
      simp only [Bool.and_eq_true] at hsnake
      obtain ⟨e, he1, he2⟩ := snakeTailMatches_getLast rest hsnake.2
      cases rest with
      | nil => simp [snakeTailMatches] at hsnake
      | cons d tl =>
        rw [List.getLast?_cons_cons, he1]
        exact he2

/-! ## `utils/enhancedCustomizeKey.ts`

`createEnhancedCustomizeKey` closes over two module-level maps
(`keyCache`, `pendingKeys`); the closure's synchronous body is embedded
as a state-passing function over `KeyGenState`.  The asynchronous
continuations that eventually populate `keyCache` only run when the
event loop regains control, i.e. between passes, never between two
synchronous invocations of the returned `customizeKey`. -/

/-- `segment.replace(/([A-Z])/g, '_$1').toLowerCase().replace(/^_/, '')`
as used by `generateTempKey`'s context extraction. -/
def segToSnakeTemp (seg : String) : String :=
  stripOneLeadingUnderscore (jsToLower (insertUnderscoreBeforeUpper seg))

/-- The context-selection loop of `generateTempKey`: first segment
containing `Management`, `Settings` or `Authorization`, else the first
segment directly following a `pages` segment; the loop breaks at the
first hit. -/
def findTempContext : Option String → List String → String
  | _, [] => ""
  | prev, seg :: rest =>
    if jsIncludes seg "Management" || jsIncludes seg "Settings"
        || jsIncludes seg "Authorization" then
      segToSnakeTemp seg
    else if prev = some "pages" then segToSnakeTemp seg
    else findTempContext (some seg) rest

/-- The literal translation table of `generateTempKey`, in source
(insertion) order. -/
def translationMap : List (String × String) :=
  [("加载中", "loading"), ("确认", "confirm"), ("取消", "cancel"), ("保存", "save"),
   ("删除", "delete"), ("编辑", "edit"), ("添加", "add"), ("创建", "create"),
   ("更新", "update"), ("成功", "success"), ("失败", "failed"), ("错误", "error"),
   ("警告", "warning"), ("提示", "tip"), ("设置", "setting"), ("管理", "management"),
   ("账户", "account"), ("账号", "account"), ("项目", "project"), ("授权", "authorization"),
   ("选择", "select"), ("请选择", "select"), ("请输入", "enter"), ("主体", "entity"),
   ("客户", "customer"), ("客户主体", "entity"), ("搜索", "search"), ("查找", "search"),
   ("筛选", "filter"), ("关联", "associate"), ("移除", "remove"), ("禁用", "disable"),
   ("启用", "enable"), ("刷新", "refresh"), ("详情", "detail"), ("列表", "list")]

/-- Stable descending-by-length insertion used to model
`Object.entries(translationMap).sort((a, b) => b[0].length - a[0].length)`
(JS `Array.prototype.sort` is stable). -/
def insertByLenDesc (p : String × String) :
    List (String × String) → List (String × String)
  | [] => [p]
  | q :: qs =>
    if q.1.data.length ≤ p.1.data.length then p :: q :: qs
    else q :: insertByLenDesc p qs

def sortedTranslations : List (String × String) :=
  translationMap.foldr insertByLenDesc []

/-- `/[^a-z0-9_]/g → ''` (removal, not underscore substitution). -/
def removeNonKeyChars (s : String) : String := ⟨s.data.filter isKeyChar⟩

/-- `generateTempKey(chineseText, filePath)`.  After the context and the
first (longest-first) translation-table hit are collected, the remaining
text is no longer consulted; the parts are joined with underscores and
cleaned. -/
def generateTempKey (chineseText : String) (filePath : Option String) : String :=
  let context := match filePath with
    | some fp => findTempContext none (splitPathSegs fp)
    | none => ""
  let remainingText :=
    jsTrim ⟨chineseText.data.filter (fun c => isCJK c || isAsciiAlnum c || isJsSpace c)⟩
  let matched := sortedTranslations.find? (fun p => jsIncludes remainingText p.1)
  let keyParts : List String :=
    (if context ≠ "" then [context] else []) ++
      (match matched with | some p => [p.2] | none => [])
  let keyParts := if keyParts = [] then ["generated", "text"] else keyParts
  let finalKey := stripEdgeUnderscores (collapseUnderscores (removeNonKeyChars
    (jsToLower (joinUnderscore (keyParts.filter (fun part => part ≠ ""))))))
  if !(match finalKey.data with | c :: _ => isAsciiLower c | [] => false)
  then "key_" ++ finalKey
  else finalKey

/-- Module-level mutable state of `enhancedCustomizeKey.ts`: the
`keyCache` map and the `pendingKeys` in-flight set (only its key set
matters to the synchronous code). -/
structure KeyGenState where
  keyCache : List (String × String)
  pendingKeys : List String

/-- `` `${key}:${path || ''}` ``. -/
def cacheKeyOf (key : String) (path : Option String) : String :=
  key ++ ":" ++ path.getD ""

/-- The synchronous body of the closure returned by
`createEnhancedCustomizeKey`.  `generatorEnabled` is whether a
`keyGenerator` was successfully constructed.  A cache hit returns the
cached key; otherwise the provisional key is returned immediately and
the cache key is recorded as pending (deduplicated) — `keyCache` itself
is only ever written by the asynchronous continuations. -/
def customizeKey (generatorEnabled : Bool) (st : KeyGenState) (key : String)
    (path : Option String) : String × KeyGenState :=
  if !generatorEnabled then (generateTempKey key path, st)
  else
    match lookupA st.keyCache (cacheKeyOf key path) with
    | some v => (v, st)
    | none =>
      (generateTempKey key path,
        if st.pendingKeys.contains (cacheKeyOf key path) then st
        else { st with pendingKeys := st.pendingKeys ++ [cacheKeyOf key path] })

theorem customizeKey_keyCache_unchanged (generatorEnabled : Bool) (st : KeyGenState)
    (key : String) (path : Option String) :
    (customizeKey generatorEnabled st key path).2.keyCache = st.keyCache := by
  unfold customizeKey
  split
  · rfl
  · split
    · rfl
    · by_cases hp : st.pendingKeys.contains (cacheKeyOf key path)
      · rw [if_pos hp]
      · rw [if_neg hp]

/-! ## `core.ts` — the extraction run (default export)

Only the extraction stage (the `if (!skipExtract)` block) is embedded;
translation, Excel export and the interactive prompt are external
collaborators.  `input` is taken to be a non-array path (the array case
only logs an error and skips the write).  The per-file work delegated to
`transform` and to the `Collector` lives outside `src/`, so it is kept
abstract through the fields of `FileSpec` below. -/

/-- One source file of the run together with the abstract outcome of
transforming it.

Modelled from the spec: `transform`/`Collector` (the Rewriter §4.4 and
Collector §4.5, not part of the embedded sources) contribute, per file
and per pass, a count of additions (`Collector.getCountOfAdditions`) and
an ordered batch of `key -> rawText` entries accumulated into the
process-wide Key Map; `entries1` are the Pass-1 contributions (built with
provisional keys) and `entries2` the Pass-2 contributions (built with the
semantic key map). -/
structure FileSpec where
  path : String
  content : String
  additions : Nat
  entries1 : List (String × String)
  entries2 : List (String × String)
  forceImport : Bool

/-- Run-level configuration and oracles: `hasOpenAI` is
`!!(openaiCfg.apiKey || openaiCfg.baseUrl)`; `oldPrimaryLang` is the
previously persisted Key Map read by `getLang`; `reserved` the set
produced by `getReservedKeysFromExistedConfig`; `namingResponse` the
abstract outcome of the batched naming call (as in
`generateSemanticSnakeCaseKeys`). -/
structure RunCfg where
  hasOpenAI : Bool
  incremental : Bool
  apiKey : String
  oldPrimaryLang : List (String × String)
  reserved : List String
  namingResponse : Option (List (String × String))
  nfkd : String → String

/-- Observable per-file effects: invoking `transform` on the file and
writing the rewritten file to disk. -/
inductive Ev where
  | transform (path : String)
  | write (path : String)
deriving DecidableEq, Repr

def isWriteEv : Ev → Bool
  | .write _ => true
  | .transform _ => false

/-- Pass-1 effects for one file: empty (after `trim`) files return before
`transform`; the rewritten file is written only when no OpenAI config is
present and the file contributed additions or forces its import
(`if (!hasOpenAI && (Collector.getCountOfAdditions() > 0 || rules[ext].forceImport))`). -/
def pass1StepEvents (cfg : RunCfg) (f : FileSpec) : List Ev :=
  if jsTrim f.content = "" then []
  else
    [.transform f.path] ++
      (if !cfg.hasOpenAI && (decide (0 < f.additions) || f.forceImport)
       then [.write f.path] else [])

def pass1Events (cfg : RunCfg) : List FileSpec → List Ev
  | [] => []
  | f :: rest => pass1StepEvents cfg f ++ pass1Events cfg rest

/-- Pass-1 Key-Map contribution of one file (nothing for skipped empty
files). -/
def pass1Entries (f : FileSpec) : List (String × String) :=
  if jsTrim f.content = "" then [] else f.entries1

/-- Sequential accumulation of per-file entry batches into the Key Map
(each batch folded in with `recordSet`, which is what `mergeMaps` does). -/
def keyMapOf : List (String × String) → List (List (String × String)) →
    List (String × String)
  | acc, [] => acc
  | acc, e :: rest => keyMapOf (mergeMaps acc e) rest

/-- The Key Map accumulated by the Collector during Pass 1. -/
def pass1KeyMap (files : List FileSpec) : List (String × String) :=
  keyMapOf [] (files.map pass1Entries)

/-- Pass-2 effects for one file: the second loop reads and transforms
every file unconditionally (no empty-file check) and writes the result. -/
def pass2StepEvents (f : FileSpec) : List Ev :=
  [.transform f.path, .write f.path]

def pass2Events : List FileSpec → List Ev
  | [] => []
  | f :: rest => pass2StepEvents f ++ pass2Events rest

/-- The Key Map rebuilt by the Collector during Pass 2 after
`Collector.setKeyMap({})`. -/
def pass2KeyMap (files : List FileSpec) : List (String × String) :=
  keyMapOf [] (files.map FileSpec.entries2)

/-- `if (i18nConfig.incremental) { merge(oldPrimaryLang, Collector.getKeyMap()) }`. -/
def afterIncremental (cfg : RunCfg) (files : List FileSpec) : List (String × String) :=
  if cfg.incremental then mergeMaps cfg.oldPrimaryLang (pass1KeyMap files)
  else pass1KeyMap files

/-- `Object.keys(flatMap).map((k) => flatMap[k])` — the deduplicated-by-key
literal list handed to the naming collaborator. -/
def namingOriginals (cfg : RunCfg) (files : List FileSpec) : List String :=
  (afterIncremental cfg files).map Prod.snd

structure RunResult where
  pass1Trace : List Ev
  pass2Trace : List Ev
  openaiMapping : Option (List (String × String))
  finalKeyMap : List (String × String)

/-- The extraction stage of `core.ts`'s default export.  When OpenAI is
configured the collected map is replaced (`Collector.setKeyMap({})`) and
rebuilt by the second rewrite loop; otherwise the (possibly
incrementally merged) Pass-1 map is what `saveLocale` persists. -/
def runExtract (cfg : RunCfg) (files : List FileSpec) : RunResult :=
  if cfg.hasOpenAI then
    { pass1Trace := pass1Events cfg files
      pass2Trace := pass2Events files
      openaiMapping := some (generateSemanticSnakeCaseKeys cfg.nfkd
        (namingOriginals cfg files) cfg.apiKey cfg.namingResponse cfg.reserved)
      finalKeyMap := pass2KeyMap files }
  else
    { pass1Trace := pass1Events cfg files
      pass2Trace := []
      openaiMapping := none
      finalKeyMap := afterIncremental cfg files }

/-! ## `commands/optimizeKeys/index.ts` -/

/-- `inferPathFromKey`. -/
def inferPathFromKey (key : String) : String :=
  if jsStartsWith key "project_setting_" then "pages/ProjectSettings"
  else if jsStartsWith key "account_management_" then "pages/AccountManagement"
  else if jsStartsWith key "authorization_" then "pages/AuthorizationManagement"
  else if jsIncludes key "customer_project_management" then "pages/CustomerProjectManagement"
  else ""

structure OptimizeOptions where
  localePath : String
  dryRun : Bool
  outputPath : Option String

/-- Environment and oracles of `optimizeKeys`: whether an API key is
available (config or environment), whether the locale file exists, its
flattened contents, and the per-key outcome of
`keyGenerator.generateKey(chineseText, contextPath)` (`none` = the
promise rejected, in which case the original key is kept). -/
structure OptimizeEnv where
  apiKeyPresent : Bool
  localeExists : Bool
  flatLocale : List (String × String)
  genKey : String → String → Option String

inductive OptResult where
  | exited
  | previewed (optimizedKeyMap keyMappings : List (String × String))
  | saved (writes : List String) (optimizedKeyMap keyMappings : List (String × String))

def writesOf : OptResult → List String
  | .exited => []
  | .previewed _ _ => []
  | .saved w _ _ => w

/-- The optimization loop: in key order, `optimizedKeyMap[optimizedKey] =
chineseText` and, when the key changed, `keyMappings[originalKey] =
optimizedKey`.  (The batching in groups of five with `Promise.all`
preserves this order, so the loop is sequential here.)  A rejected
`generateKey` promise keeps the original key. -/
def optimizeLoopFold (genKey : String → String → Option String) :
    List (String × String) → List (String × String) × List (String × String) →
      List (String × String) × List (String × String)
  | [], acc => acc
  | (originalKey, chineseText) :: rest, (optMap, mappings) =>
    let optimizedKey := (genKey chineseText (inferPathFromKey originalKey)).getD originalKey
    optimizeLoopFold genKey rest
      (recordSet optMap optimizedKey chineseText,
        if originalKey = optimizedKey then mappings
        else recordSet mappings originalKey optimizedKey)

/-- `replace(/\.json$/, '.key-mappings.json')`. -/
def mappingPathOf (p : String) : String :=
  if jsEndsWith p ".json" then jsDropRight p 5 ++ ".key-mappings.json" else p

/-- `optimizeKeys(options)`.  Note the `dryRun` early return sits after
the whole optimization loop but before any file write. -/
def optimizeKeys (opts : OptimizeOptions) (env : OptimizeEnv) : OptResult :=
  if !env.apiKeyPresent then .exited
  else if !env.localeExists then .exited
  else
    let folded := optimizeLoopFold env.genKey env.flatLocale ([], [])
    let optimizedKeyMap := folded.1
    let keyMappings := folded.2
    if opts.dryRun then .previewed optimizedKeyMap keyMappings
    else
      let finalOutputPath := opts.outputPath.getD opts.localePath
      let writes :=
        [finalOutputPath] ++
          (if keyMappings = [] then [] else [mappingPathOf finalOutputPath])
      .saved writes optimizedKeyMap keyMappings

/-! ## Claim theorems -/

theorem customizeKey_fst_congr (g : Bool) (st1 st2 : KeyGenState) (key : String)
    (path : Option String) (h : st1.keyCache = st2.keyCache) :
    (customizeKey g st1 key path).1 = (customizeKey g st2 key path).1 := by
  by_cases hg : (!g) = true
  · simp only [customizeKey, if_pos hg]
  · simp only [customizeKey, if_neg hg, h]
    cases lookupA st2.keyCache (cacheKeyOf key path) <;> rfl

/-- C6: the Key Assigner is deterministic within a single naming pass —
for every literal text and file path, two back-to-back synchronous
invocations of `customizeKey` (the function created by
`createEnhancedCustomizeKey`, threading its module state) return the
same key: the synchronous body never writes `keyCache`, so the second
call sees the same cache and produces the same result. -/
theorem c6_customize_key_deterministic (generatorEnabled : Bool) (st : KeyGenState)
    (key : String) (path : Option String) :
    (customizeKey generatorEnabled
        (customizeKey generatorEnabled st key path).2 key path).1 =
      (customizeKey generatorEnabled st key path).1 :=
  customizeKey_fst_congr generatorEnabled _ st key path
    (customizeKey_keyCache_unchanged generatorEnabled st key path)

/-- C5: in the mapping returned by the naming step, raw texts are unique
(identical raw text collapses to a single entry, hence a single key) and
assigned keys are unique (distinct literals never share a key, so the
inverse key-to-literal map never holds two raw texts under one key). -/
theorem c5_key_map_injectivity (nfkd : String → String) (originals : List String)
    (apiKey : String) (response : Option (List (String × String)))
    (reserved : List String) :
    ((generateSemanticSnakeCaseKeys nfkd originals apiKey response reserved).map
      Prod.fst).Nodup
    ∧ ((generateSemanticSnakeCaseKeys nfkd originals apiKey response reserved).map
      Prod.snd).Nodup :=
  ⟨generateSemanticSnakeCaseKeys_keys_nodup nfkd originals apiKey response reserved,
   generateSemanticSnakeCaseKeys_values_nodup nfkd originals apiKey response reserved⟩

/-- C8: `generateSemanticSnakeCaseKeys` returns exactly one key per
distinct input literal (its domain is exactly the set of input literals,
each appearing once) and never reuses a reserved key. -/
theorem c8_one_key_per_literal_reserved_avoided (nfkd : String → String)
    (originals : List String) (apiKey : String)
    (response : Option (List (String × String))) (reserved : List String) :
    ((generateSemanticSnakeCaseKeys nfkd originals apiKey response reserved).map
      Prod.fst).Nodup
    ∧ (∀ o, o ∈ (generateSemanticSnakeCaseKeys nfkd originals apiKey response
        reserved).map Prod.fst ↔ o ∈ originals)
    ∧ (∀ v ∈ (generateSemanticSnakeCaseKeys nfkd originals apiKey response
        reserved).map Prod.snd, v ∉ reserved) :=
  ⟨generateSemanticSnakeCaseKeys_keys_nodup nfkd originals apiKey response reserved,
   fun o => generateSemanticSnakeCaseKeys_keys_mem nfkd originals apiKey response reserved o,
   generateSemanticSnakeCaseKeys_values_not_reserved nfkd originals apiKey response reserved⟩

theorem c8_witness :
    ((generateSemanticSnakeCaseKeys id ["提交", "确认"] "sk" none ["key_1"]).map
      Prod.fst).Nodup
    ∧ (∀ o, o ∈ (generateSemanticSnakeCaseKeys id ["提交", "确认"] "sk" none
        ["key_1"]).map Prod.fst ↔ o ∈ ["提交", "确认"])
    ∧ (∀ v ∈ (generateSemanticSnakeCaseKeys id ["提交", "确认"] "sk" none
        ["key_1"]).map Prod.snd, v ∉ ["key_1"]) :=
  c8_one_key_per_literal_reserved_avoided id ["提交", "确认"] "sk" none ["key_1"]

/-- C9: `OpenAIKeyGenerator.generateKey` either throws (the `.error`
outcome) or returns a key accepted by `isValidKey`, which implies the
claim's validity predicate: only lowercase letters, digits and
underscores, starting with a letter, ending with a letter or digit, no
Chinese characters, and length greater than 3. -/
theorem c9_generate_key_validity (chineseText : String) (filePath : Option String)
    (response : Option String) (k : String)
    (h : generateKey chineseText filePath response = .ok k) :
    isValidKey k = true ∧ claimValidKey k = true := by
  unfold generateKey at h
  cases response with
  | none => exact absurd h (by simp)
  | some content =>
    simp only at h
    by_cases h1 : jsTrim content = ""
    · rw [if_pos h1] at h
      exact absurd h (by simp)
    · rw [if_neg h1] at h
      by_cases h2 : isValidKey (sanitizeKey (jsTrim content)
          (extractContextFromPath filePath)) = true
      · rw [if_pos h2] at h
        have hk : sanitizeKey (jsTrim content) (extractContextFromPath filePath) = k := by
          injection h
        rw [hk] at h2
        exact ⟨h2, isValidKey_claimValid k h2⟩
      · rw [if_neg h2] at h
        exact absurd h (by simp)

theorem c9_witness :
    generateKey "你好" (some "src/pages/Home/index.tsx") (some "greeting_hello") =
      .ok "home_greeting_hello"
    ∧ (isValidKey "home_greeting_hello" = true
        ∧ claimValidKey "home_greeting_hello" = true) :=
  ⟨by rfl,
   c9_generate_key_validity "你好" (some "src/pages/Home/index.tsx")
     (some "greeting_hello") "home_greeting_hello" (by rfl)⟩

/-- C10: `optimizeKeys` with `dryRun` set performs no file write — the
dry-run branch returns before the locale file or the key-mappings file
would be written. -/
theorem c10_dry_run_no_writes (opts : OptimizeOptions) (env : OptimizeEnv)
    (h : opts.dryRun = true) : writesOf (optimizeKeys opts env) = [] := by
  cases hA : env.apiKeyPresent <;> cases hL : env.localeExists <;>
    simp [optimizeKeys, hA, hL, h, writesOf]

theorem c10_witness :
    writesOf (optimizeKeys
      { localePath := "./locales/zh-CN.json", dryRun := true, outputPath := none }
      { apiKeyPresent := true, localeExists := true,
        flatLocale := [("提交", "提交")], genKey := fun _ _ => some "submit" }) = [] :=
  c10_dry_run_no_writes _ _ (by rfl)

/-- C4: when a naming collaborator is configured (`hasOpenAI`), Pass 1
performs no file write — every write event of the run belongs to the
Pass-2 rewrite loop. -/
theorem c4_no_pass1_writes_with_naming (cfg : RunCfg) (files : List FileSpec)
    (h : cfg.hasOpenAI = true) :
    ((runExtract cfg files).pass1Trace).filter isWriteEv = [] := by
  have hstep : ∀ f, (pass1StepEvents cfg f).filter isWriteEv = [] := by
    intro f
    unfold pass1StepEvents
    split
    · rfl
    · simp [h, isWriteEv]
  have hall : ∀ fs, (pass1Events cfg fs).filter isWriteEv = [] := by
    intro fs
    induction fs with
    | nil => rfl
    | cons f rest ih =>
      rw [pass1Events, List.filter_append, hstep, ih]
      rfl
  unfold runExtract
  split <;> exact hall files

def cfgC4 : RunCfg :=
  { hasOpenAI := true, incremental := false, apiKey := "sk", oldPrimaryLang := [],
    reserved := [], namingResponse := none, nfkd := id }

def filesC4 : List FileSpec :=
  [{ path := "src/a.tsx", content := "const x = y(提交)", additions := 1,
     entries1 := [("提交", "提交")], entries2 := [("key_1", "提交")],
     forceImport := false }]

theorem c4_witness :
    ((runExtract cfgC4 filesC4).pass1Trace).filter isWriteEv = [] :=
  c4_no_pass1_writes_with_naming cfgC4 filesC4 (by rfl)

def cfgC1 : RunCfg :=
  { hasOpenAI := true, incremental := false, apiKey := "sk", oldPrimaryLang := [],
    reserved := [], namingResponse := none, nfkd := id }

def filesC1 : List FileSpec :=
  [{ path := "src/a.ts", content := "const x = y(确认)", additions := 1,
     entries1 := [("确认", "确认")], entries2 := [("key_1", "确认")],
     forceImport := false }]

/-- C1 counterexample: a run with semantic naming enabled whose batched
naming call fails (`namingResponse = none`, covering an unreachable
collaborator) completes Pass 2 — the second rewrite loop transforms and
writes the file — using a key map of heuristic fallback keys
(`toSnakeCase` of the Chinese literal is empty, so the fallback key
`key_1` is used), with no error surfaced anywhere. -/
theorem c1_counterexample :
    (runExtract cfgC1 filesC1).openaiMapping = some [("确认", "key_1")]
    ∧ (runExtract cfgC1 filesC1).pass2Trace =
        [.transform "src/a.ts", .write "src/a.ts"]
    ∧ (runExtract cfgC1 filesC1).finalKeyMap = [("key_1", "确认")] := by
  refine ⟨by rfl, by rfl, by rfl⟩

/-- C1 (amended): when the batched naming call fails, the orchestrator
does not surface an error — `generateSemanticSnakeCaseKeys` swallows the
failure and the run proceeds into Pass 2 with the heuristic fallback map
(`toSnakeCase`-derived keys, uniquified and reserved-adjusted), exactly
the silent fallback the spec flags as an open question in §9. -/
theorem c1_naming_failure_silently_falls_back (cfg : RunCfg) (files : List FileSpec)
    (h1 : cfg.hasOpenAI = true) (h2 : cfg.namingResponse = none) :
    (runExtract cfg files).openaiMapping = some (reservedAdjust cfg.reserved
      (ensureUniqueKeys cfg.nfkd (buildFallback cfg.nfkd (namingOriginals cfg files))))
    ∧ (runExtract cfg files).pass2Trace = pass2Events files := by
  have hmap : generateSemanticSnakeCaseKeys cfg.nfkd (namingOriginals cfg files)
      cfg.apiKey cfg.namingResponse cfg.reserved =
      reservedAdjust cfg.reserved (ensureUniqueKeys cfg.nfkd
        (buildFallback cfg.nfkd (namingOriginals cfg files))) := by
    unfold generateSemanticSnakeCaseKeys
    rw [h2]
    by_cases hk : cfg.apiKey = ""
    · rw [if_pos hk]
    · rw [if_neg hk]
  have hrun : runExtract cfg files =
      { pass1Trace := pass1Events cfg files
        pass2Trace := pass2Events files
        openaiMapping := some (generateSemanticSnakeCaseKeys cfg.nfkd
          (namingOriginals cfg files) cfg.apiKey cfg.namingResponse cfg.reserved)
        finalKeyMap := pass2KeyMap files } := by
    unfold runExtract
    rw [h1]
    rfl
  rw [hrun, hmap]
  exact ⟨rfl, rfl⟩

theorem c1_witness :
    (runExtract cfgC1 filesC1).openaiMapping = some (reservedAdjust cfgC1.reserved
      (ensureUniqueKeys cfgC1.nfkd (buildFallback cfgC1.nfkd
        (namingOriginals cfgC1 filesC1))))
    ∧ (runExtract cfgC1 filesC1).pass2Trace = pass2Events filesC1 :=
  c1_naming_failure_silently_falls_back cfgC1 filesC1 (by rfl) (by rfl)

/-- C2 counterexample: two distinct literals both proposed the key
`submit` by the naming strategy; the later one receives `submit_1`
(`ensureUniqueKeys` starts its counter at `let i = 1`), not the
`submit_2` the claim requires. -/
theorem c2_counterexample :
    generateSemanticSnakeCaseKeys id ["提交", "确认"] "sk"
      (some [("提交", "submit"), ("确认", "submit")]) [] =
      [("提交", "submit"), ("确认", "submit_1")]
    ∧ lookupA (generateSemanticSnakeCaseKeys id ["提交", "确认"] "sk"
        (some [("提交", "submit"), ("确认", "submit")]) []) "确认" ≠
        some "submit_2" := by
  refine ⟨by decide, by decide⟩

/-- C2 (amended): when distinct literals collide on one proposed key,
later ones are suffixed in first-encountered insertion order with a
counter starting at 1 — `key`, `key_1`, `key_2`, … — while only a
collision against the reserved-key set is suffixed with a counter
starting at 2 (`key_2` directly). -/
theorem c2_collision_suffixes_start_at_one (a b c k : String)
    (nfkd : String → String) (hab : a ≠ b) (hac : a ≠ c) (hbc : b ≠ c)
    (hk : k ≠ "") :
    reservedAdjust [] (ensureUniqueKeys nfkd [(a, k), (b, k), (c, k)]) =
      [(a, k), (b, suffixCand k 1), (c, suffixCand k 2)]
    ∧ reservedAdjust [k] (ensureUniqueKeys nfkd [(a, k)]) =
      [(a, suffixCand k 2)] := by
  have h10 : suffixCand k 1 ≠ suffixCand k 0 := by
    intro h
    have := suffixCand_injective k h
    omega
  have h20 : suffixCand k 2 ≠ suffixCand k 0 := by
    intro h
    have := suffixCand_injective k h
    omega
  have h21 : suffixCand k 2 ≠ suffixCand k 1 := by
    intro h
    have := suffixCand_injective k h
    omega
  have hs0 : suffixCand k 0 = k := rfl
  rw [hs0] at h10 h20
  constructor
  · simp [ensureUniqueKeys, ensureUniqueKeysAux, reservedAdjust, reservedAdjustAux,
      pickFreshFrom, hk, hs0, h10, h20, h21]
  · simp [ensureUniqueKeys, ensureUniqueKeysAux, reservedAdjust, reservedAdjustAux,
      pickFreshFrom, hk, hs0, h10, h20, h21]

theorem c2_witness :
    reservedAdjust []
        (ensureUniqueKeys id [("提交", "submit"), ("确认", "submit"), ("取消", "submit")]) =
      [("提交", "submit"), ("确认", suffixCand "submit" 1), ("取消", suffixCand "submit" 2)]
    ∧ reservedAdjust ["submit"] (ensureUniqueKeys id [("提交", "submit")]) =
      [("提交", suffixCand "submit" 2)] :=
  c2_collision_suffixes_start_at_one "提交" "确认" "取消" "submit" id
    (by decide) (by decide) (by decide) (by decide)

def cfgC3 : RunCfg :=
  { hasOpenAI := true, incremental := true, apiKey := "sk",
    oldPrimaryLang := [("greet", "你好")], reserved := [], namingResponse := none,
    nfkd := id }

def filesC3 : List FileSpec :=
  [{ path := "src/a.ts", content := "", additions := 0, entries1 := [],
     entries2 := [], forceImport := false }]

/-- C3 counterexample: an incremental run with semantic naming enabled.
The previously persisted entry `greet -> 你好` is merged in after Pass 1,
but the second pass resets the Collector (`Collector.setKeyMap({})`) and
rebuilds the map from the files alone, so the final Key Map is empty:
the persisted entry is dropped and the final map differs from the merge
the claim requires. -/
theorem c3_counterexample :
    cfgC3.incremental = true
    ∧ (runExtract cfgC3 filesC3).finalKeyMap = []
    ∧ mergeMaps cfgC3.oldPrimaryLang (pass1KeyMap filesC3) = [("greet", "你好")]
    ∧ ((runExtract cfgC3 filesC3).finalKeyMap.map Prod.fst).contains "greet" = false := by
  refine ⟨by rfl, by rfl, by rfl, by rfl⟩

/-- C3 (amended): the incremental guarantee holds exactly when semantic
naming is disabled — the final Key Map is then the merge of the
previously persisted map (base) with the newly collected entries, and
every previously persisted key survives into the final map.  (With
semantic naming enabled the merged map is discarded before the second
pass and the final map is rebuilt from Pass 2 alone.) -/
theorem c3_incremental_merge_without_naming (cfg : RunCfg) (files : List FileSpec)
    (h1 : cfg.hasOpenAI = false) (h2 : cfg.incremental = true) :
    (runExtract cfg files).finalKeyMap =
      mergeMaps cfg.oldPrimaryLang (pass1KeyMap files)
    ∧ ∀ p ∈ cfg.oldPrimaryLang,
        ∃ q ∈ (runExtract cfg files).finalKeyMap, q.1 = p.1 := by
  have hfinal : (runExtract cfg files).finalKeyMap =
      mergeMaps cfg.oldPrimaryLang (pass1KeyMap files) := by
    unfold runExtract
    rw [h1]
    simp only [Bool.false_eq_true, if_false]
    unfold afterIncremental
    rw [h2]
    simp
  refine ⟨hfinal, ?_⟩
  rw [hfinal]
  exact mergeMaps_key_preserved (pass1KeyMap files) cfg.oldPrimaryLang

def cfgC3w : RunCfg :=
  { hasOpenAI := false, incremental := true, apiKey := "",
    oldPrimaryLang := [("greet", "你好")], reserved := [], namingResponse := none,
    nfkd := id }

theorem c3_witness :
    (runExtract cfgC3w filesC3).finalKeyMap =
      mergeMaps cfgC3w.oldPrimaryLang (pass1KeyMap filesC3)
    ∧ ∀ p ∈ cfgC3w.oldPrimaryLang,
        ∃ q ∈ (runExtract cfgC3w filesC3).finalKeyMap, q.1 = p.1 :=
  c3_incremental_merge_without_naming cfgC3w filesC3 (by rfl) (by rfl)

def cfgC7 : RunCfg :=
  { hasOpenAI := true, incremental := false, apiKey := "sk", oldPrimaryLang := [],
    reserved := [], namingResponse := none, nfkd := id }

def fileC7 : FileSpec :=
  { path := "src/empty.ts", content := "", additions := 0, entries1 := [],
    entries2 := [], forceImport := false }

/-- C7 counterexample: in a run with semantic naming enabled, an empty
file is skipped by Pass 1 but the Pass-2 rewrite loop transforms it and
writes it back — so it is not true that every pass leaves an empty file
untransformed and unwritten. -/
theorem c7_counterexample :
    (runExtract cfgC7 [fileC7]).pass1Trace = []
    ∧ (runExtract cfgC7 [fileC7]).pass2Trace =
        [.transform "src/empty.ts", .write "src/empty.ts"] := by
  refine ⟨by rfl, by rfl⟩

/-- C7 (amended): files whose content trims to the empty string are
skipped before any transform or write during Pass 1 only; the Pass-2
rewrite loop (which has no empty-file check) transforms and writes every
file, empty ones included. -/
theorem c7_empty_file_skipped_in_pass1_only (cfg : RunCfg) (f : FileSpec)
    (h : jsTrim f.content = "") :
    pass1StepEvents cfg f = []
    ∧ pass2StepEvents f = [.transform f.path, .write f.path] := by
  refine ⟨?_, by rfl⟩
  unfold pass1StepEvents
  rw [if_pos h]

theorem c7_witness :
    pass1StepEvents cfgC7 fileC7 = []
    ∧ pass2StepEvents fileC7 = [.transform fileC7.path, .write fileC7.path] :=
  c7_empty_file_skipped_in_pass1_only cfgC7 fileC7 (by rfl)

end I18n
